import Mathlib

/-!
Shallow embedding of Flaskyll's content cache and pagination engine.

The embedding covers, faithfully to the Python source:
 - the Document parser (`YamlPages.parse_page` in flaskyll/yamlpages.py),
 - lazy Document metadata (`YamlPage.meta`),
 - the Document cache and Collection reload
   (`YamlPages.load_page`, `YamlPages.prune_cache`, `YamlPages.load_pages`),
 - the Context Builder (`build_base_context` in scripts/flaskyll.py),
 - the Paginator (`maybe_build_pager`, `build_posts_pager`,
   `build_categories_pager` in scripts/flaskyll.py).

Modelling conventions: machine text is `String` (Python unicode, already
decoded; the configurable encoding step is therefore a no-op here),
timestamps are `Nat`, Python dicts are association lists with functional
lookup/update, filesystem state is an explicit list of entries, and Python
exceptions are `Except` errors.  Functions that print (verbose mode) have
the printing dropped; nothing else observes it.
-/

namespace Flaskyll

/-! ## Document parser

`YamlPages.parse_page` splits the decoded file content on the newline
character, takes the longest prefix of lines that are non-empty after
stripping whitespace as the header (the iterator consumes the first blank
line, which therefore lands in neither part), and joins the remaining
lines as the body.  We model Python's `content.split(u'\n')` /
`u'\n'.join(...)` as character-level splitting and joining on `'\n'`, and
the truthiness of `unicode.strip` as "not all whitespace".  (Python strips
a slightly larger set of unicode whitespace characters than
`Char.isWhitespace`; lines produced by the split never contain `'\n'`, so
for the ASCII whitespace set the two agree.)
-/

/-- `splitLines cs` models Python's `text.split('\n')`: splitting on every
newline character, `[[]]` for the empty text. -/
def splitLines : List Char → List (List Char)
  | [] => [[]]
  | c :: cs =>
    match splitLines cs with
    | [] => [[]]
    | l :: ls => if c = '\n' then [] :: l :: ls else (c :: l) :: ls

/-- `joinLines ls` models Python's `'\n'.join(...)` at the character level. -/
def joinLines : List (List Char) → List Char
  | [] => []
  | l :: ls =>
    match ls with
    | [] => l
    | _ :: _ => l ++ '\n' :: joinLines ls

/-- A line is blank when it strips to the empty string, i.e. all of its
characters are whitespace.  `unicode.strip` used as a predicate in the
source is exactly the negation of this. -/
def isBlank (l : List Char) : Bool := l.all (·.isWhitespace)

/-- `YamlPages.parse_page`: split content into the YAML header and the body.
The header is the longest prefix of non-blank lines; the iterator-based
`itertools.takewhile` consumes the terminating blank line, so the body is
everything after that boundary line. -/
def parse_page (content : String) : String × String :=
  let lines := splitLines content.data
  let headerPart := joinLines (lines.takeWhile (fun l => !isBlank l))
  let bodyPart := joinLines ((lines.dropWhile (fun l => !isBlank l)).drop 1)
  (String.mk headerPart, String.mk bodyPart)

/-! ## Document metadata (`YamlPage.meta`)

The header text is handed to the external YAML parser (`yaml.load`); we
model its result as a `Yaml` value.  An empty or whitespace-only header
parses to YAML null.  The source computes
`meta = yaml.load(self._meta, Loader) or {}` followed by
`assert isinstance(meta, dict)`: the `or {}` replaces any *falsy* parse
result (null, false, 0, the empty string, the empty sequence, the empty
mapping) by the empty dict, and the assertion then rejects every remaining
non-mapping value. -/

/-- YAML values as produced by the external metadata parser.  Floats are
not needed by any claim and are omitted. -/
inductive Yaml where
  | ynull
  | ybool (b : Bool)
  | yint (n : Int)
  | ystr (s : String)
  | ylist (l : List Yaml)
  | ydict (l : List (String × Yaml))

/-- Python truthiness of a parsed YAML value. -/
def falsy : Yaml → Bool
  | .ynull => true
  | .ybool b => !b
  | .yint n => n == 0
  | .ystr s => s == ""
  | .ylist l => l.isEmpty
  | .ydict l => l.isEmpty

/-- Is the value a YAML mapping (a Python dict)? -/
def isDict : Yaml → Bool
  | .ydict _ => true
  | _ => false

/-- The fatal error raised when the parsed header is not a mapping
(an `AssertionError` in the source; `MalformedMetadataError` in the spec). -/
inductive MalformedMetadataError where
  | malformed
deriving DecidableEq, Repr

/-- `YamlPage.meta`: given the YAML parse result of the header, compute the
metadata mapping, or fail when the assertion `isinstance(meta, dict)`
fails.  Mirrors `yaml.load(...) or {}` followed by the assertion. -/
def page_meta (parsed : Yaml) : Except MalformedMetadataError (List (String × Yaml)) :=
  let m : Yaml := if falsy parsed then .ydict [] else parsed
  match m with
  | .ydict d => .ok d
  | _ => .error .malformed

/-! ## Document cache and Collection (`YamlPages`)

State: `_file_cache` maps absolute file paths to `(page, mtime)` pairs and
persists across reloads; `_pages` maps routes to pages; `_first_run` is
cleared at the end of the first `load_pages`.  The filesystem is a list of
entries (walk order), each carrying its path relative to the collection
root, its modification time, and its decoded content.  A reload walks a
snapshot of the tree (`walked`) while stat/read go against the live
filesystem (`fs`); the two coincide except in vanished-file races. -/

/-- A Document: route, raw YAML header text, raw body text.  The source
also stores the collection's renderer on each page; rendering is an opaque
external collaborator and is not modelled. -/
structure YamlPage where
  path : String
  meta : String
  body : String
deriving DecidableEq, Repr

/-- One file on disk: path relative to the collection root (with posix
separators, as produced by `os.walk` + `os.path.relpath`), modification
time, decoded content. -/
structure FsEntry where
  relpath : String
  mtime : Nat
  content : String
deriving DecidableEq, Repr

/-- Collection configuration (`YamlPages.__init__`).  `verbose`,
`renderer` and `encoding` only affect logging, lazy rendering and
decoding, none of which is observable in the model. -/
structure Config where
  root : String
  extensions : List String
  prunning : Bool
  excludes : List String
deriving DecidableEq, Repr

/-- Mutable state of a `YamlPages` collection. -/
structure PagesState where
  file_cache : List (String × YamlPage × Nat)
  pages : List (String × YamlPage)
  first_run : Bool
deriving DecidableEq, Repr

/-- The state of a freshly constructed collection. -/
def initState : PagesState := { file_cache := [], pages := [], first_run := true }

/-- Dictionary lookup on an association list (`d.get(k)` / `d[k]`). -/
def alistGet {α : Type} (k : String) : List (String × α) → Option α
  | [] => none
  | (k', v) :: rest => if k' = k then some v else alistGet k rest

/-- Dictionary assignment `d[k] = v` on an association list: replace the
binding if the key is present, append it otherwise. -/
def alistInsert {α : Type} (k : String) (v : α) : List (String × α) → List (String × α)
  | [] => [(k, v)]
  | (k', v') :: rest =>
    if k' = k then (k, v) :: rest else (k', v') :: alistInsert k v rest

/-- Does `pre` occur at the start of `s`?  Models `str.startswith` for one
prefix candidate. -/
def listStarts : List Char → List Char → Bool
  | [], _ => true
  | _ :: _, [] => false
  | a :: as, b :: bs => a == b && listStarts as bs

/-- Membership of a string in a list (`x in lst`). -/
def strMem (s : String) : List String → Bool
  | [] => false
  | t :: ts => (t == s) || strMem s ts

/-- Split a character list at the first occurrence of `c`:
`breakAtFirst c l = some (a, b)` when `l = a ++ c :: b` with `c ∉ a`. -/
def breakAtFirst (c : Char) : List Char → Option (List Char × List Char)
  | [] => none
  | x :: xs =>
    if x = c then some ([], xs)
    else (breakAtFirst c xs).map (fun p => (x :: p.1, p.2))

/-- `os.path.splitext` (posix): split off the extension at the last dot of
the basename, unless every character of the basename before that dot is
itself a dot (hidden files such as `.hgignore` have no extension). -/
def splitext (p : String) : String × String :=
  let (dir, base) :=
    match breakAtFirst '/' p.data.reverse with
    | some (revBase, revDirRest) => (revDirRest.reverse ++ ['/'], revBase.reverse)
    | none => ([], p.data)
  match breakAtFirst '.' base.reverse with
  | some (revExt, revStem) =>
    if revStem.reverse.all (· = '.') then (p, "")
    else (String.mk (dir ++ revStem.reverse), String.mk ('.' :: revExt.reverse))
  | none => (p, "")

/-- The route of a discovered file: its relative path with the extension
stripped.  (The separator normalisation `route.replace(os.sep, '/')` is
the identity in this posix model.) -/
def routeOf (e : FsEntry) : String := (splitext e.relpath).1

/-- `os.path.join(root, relpath)` in the posix model. -/
def joinPath (root rel : String) : String := root ++ "/" ++ rel

/-- The filter applied during the walk: the route must not start with any
excluded prefix string, and the extension must be one of the configured
extensions. -/
def matchesFilters (cfg : Config) (e : FsEntry) : Bool :=
  !(cfg.excludes.any (fun pre => listStarts pre.data (routeOf e).data)) &&
    strMem (splitext e.relpath).2 cfg.extensions

/-- Stat: find the live filesystem entry whose absolute path is `fp`. -/
def statFile (fs : List FsEntry) (root fp : String) : Option FsEntry :=
  fs.find? (fun e => joinPath root e.relpath == fp)

/-- `os.path.getmtime`, returning `none` when the stat fails. -/
def getmtime (fs : List FsEntry) (root fp : String) : Option Nat :=
  (statFile fs root fp).map (·.mtime)

/-- `os.path.isfile` (never raises). -/
def isfile (fs : List FsEntry) (root fp : String) : Bool :=
  (statFile fs root fp).isSome

/-- The error raised when a file vanishes between discovery and load (an
uncaught `OSError` from `os.path.getmtime` in the source;
`FileUnavailableError` in the spec). -/
inductive LoadError where
  | fileUnavailable
deriving DecidableEq, Repr

/-- The miss/stale branch of `YamlPages.load_page`: read and parse the
file, build the page, store it in the file cache and the routes mapping. -/
def loadFresh (route fp : String) (e : FsEntry) (s : PagesState) : PagesState :=
  let mb := parse_page e.content
  let page : YamlPage := { path := route, meta := mb.1, body := mb.2 }
  { s with
    file_cache := alistInsert fp (page, e.mtime) s.file_cache
    pages := alistInsert route page s.pages }

/-- `YamlPages.load_page`.  Stat the file (uncaught error if it vanished);
on a cache hit with an unchanged timestamp do nothing; otherwise read,
parse and store.  The returned boolean records whether the file was read
and parsed (the observable "parse counter" event). -/
def load_page (cfg : Config) (fs : List FsEntry) (route fp : String) (s : PagesState) :
    Except LoadError (PagesState × Bool) :=
  match statFile fs cfg.root fp with
  | none => .error .fileUnavailable
  | some e =>
    match alistGet fp s.file_cache with
    | some pt =>
      if pt.2 = e.mtime then .ok (s, false)
      else .ok (loadFresh route fp e s, true)
    | none => .ok (loadFresh route fp e s, true)

/-- `YamlPages.prune_cache`: drop file-cache entries whose file no longer
exists.  The routes mapping is not touched. -/
def prune_cache (fs : List FsEntry) (root : String) (s : PagesState) : PagesState :=
  { s with file_cache := s.file_cache.filter (fun kv => isfile fs root kv.1) }

/-- The walk loop of `YamlPages.load_pages` over the discovered entries. -/
def load_pages_go (cfg : Config) (fs : List FsEntry) :
    List FsEntry → PagesState → Except LoadError PagesState
  | [], s => .ok s
  | e :: rest, s =>
    if matchesFilters cfg e then
      match load_page cfg fs (routeOf e) (joinPath cfg.root e.relpath) s with
      | .error err => .error err
      | .ok (s', _) => load_pages_go cfg fs rest s'
    else load_pages_go cfg fs rest s

/-- `YamlPages.load_pages` (the Collection's `reload()`): prune the file
cache when pruning is enabled, walk the discovered tree loading every
matching file, then clear the first-run flag.  `walked` is the tree as
discovered by `os.walk`; `fs` is the live filesystem used by stat, read
and prune (they differ only in vanished-file races). -/
def load_pages (cfg : Config) (walked fs : List FsEntry) (s : PagesState) :
    Except LoadError PagesState :=
  let s0 := if cfg.prunning then prune_cache fs cfg.root s else s
  match load_pages_go cfg fs walked s0 with
  | .error err => .error err
  | .ok s1 => .ok { s1 with first_run := false }

/-- Well-formedness of one file-cache entry relative to the routes
mapping: the cached page's route is the route derived from the cached
path, and that route is present in the routes mapping.  Every state
reachable from `initState` through reloads satisfies this. -/
def wfEntry (cfg : Config) (pages : List (String × YamlPage))
    (kv : String × YamlPage × Nat) : Bool :=
  (kv.2.1.path == (splitext (String.mk (kv.1.data.drop (cfg.root.data.length + 1)))).1) &&
    (alistGet kv.2.1.path pages).isSome

/-- Well-formedness of a collection state. -/
def StateWF (cfg : Config) (s : PagesState) : Bool :=
  s.file_cache.all (wfEntry cfg s.pages)

/-! ## Context Builder (`build_base_context`)

Posts are Documents whose parsed metadata we project to the fields the
builder reads: the optional `date` field (dates are modelled as `Nat`,
ordered as dates are; the source additionally raises on a non-date value,
a path no claim exercises) and the optional `categories` list.  `slug`
identifies the post (its route). -/

/-- A post, projected to the metadata fields the Context Builder reads. -/
structure Post where
  slug : String
  date? : Option Nat
  cats? : Option (List String)
deriving DecidableEq, Repr

/-- Does the post declare a date field? -/
def hasDate (p : Post) : Bool := p.date?.isSome

/-- The post's date (only meaningful when `hasDate`). -/
def dateOf (p : Post) : Nat := p.date?.getD 0

/-- The post's category list after the builder defaults a missing list to
`['uncategorized']`. -/
def effCategories (p : Post) : List String := p.cats?.getD ["uncategorized"]

/-- Stable descending insertion by date: the new element is placed before
the first element whose date is not greater, so that elements discovered
earlier stay before later ties.  `sortPublished` below is therefore the
stable descending sort `published.sort(reverse=True, key=date)`. -/
def insertPost (p : Post) : List Post → List Post
  | [] => [p]
  | q :: qs => if dateOf p < dateOf q then q :: insertPost p qs else p :: q :: qs

/-- Stable sort of the published list by date descending. -/
def sortPublished (l : List Post) : List Post := l.foldr insertPost []

/-- `categories.setdefault(c, []); categories[c].append(post)`. -/
def addToCat (c : String) (p : Post) : List (String × List Post) → List (String × List Post)
  | [] => [(c, [p])]
  | (k, l) :: rest =>
    if k = c then (k, l ++ [p]) :: rest else (k, l) :: addToCat c p rest

/-- Append one post to every category it declares. -/
def processPost (cats : List (String × List Post)) (p : Post) : List (String × List Post) :=
  (effCategories p).foldl (fun acc c => addToCat c p acc) cats

/-- The category index accumulated over the dated posts in discovery
order. -/
def buildCats (ps : List Post) : List (String × List Post) :=
  ps.foldl processPost []

/-- The Context Snapshot: the `posts` key (the sorted published list) and
the `categories` key.  The `pages` key of the source's context dict is the
pages Collection itself and plays no role in any claim. -/
structure ContextSnapshot where
  posts : List Post
  categories : List (String × List Post)
deriving DecidableEq, Repr

/-- `build_base_context`: filter the dated posts in discovery order,
build the category index from them in that order, and sort the published
list by date descending (stable). -/
def build_base_context (ps : List Post) : ContextSnapshot :=
  let published := ps.filter hasDate
  { posts := sortPublished published, categories := buildCats published }

/-! ## Paginator -/

/-- The distinguishable fatal pagination errors (generic `Exception`s with
distinct messages in the source).  `perpageTypeError` models the uncaught
`TypeError` of `ceil(float(len(posts)) / None)` when the `perpage` key is
missing. -/
inductive PagerError where
  | unknownCategory
  | invalidPerpage
  | invalidPageNumber
  | perpageTypeError
deriving DecidableEq, Repr

/-- The `page` field of a pager: the current page number for post-count
pagination, the category name for category pagination. -/
inductive PageKey where
  | num (n : Int)
  | name (s : String)
deriving DecidableEq, Repr

/-- The pagination dict `{'page': ..., 'total': ..., 'posts': ...}`. -/
structure Pager where
  page : PageKey
  total : Nat
  posts : List Post
deriving DecidableEq, Repr

/-- The pagination-relevant metadata of the requesting page.  `perpage`
values that are YAML integers are modelled exactly; a non-integer
`perpage` fails the same `isinstance` check as a value below 1 and is
folded into `invalidPerpage` by the claims that mention it. -/
structure PagerMeta where
  paginate : Option String
  category : Option String
  perpage : Option Int
deriving DecidableEq, Repr

/-- The `current` argument as supplied by the routing layer: the integer
default `1` when no route segment is given, otherwise the route segment
text. -/
inductive Current where
  | num (n : Int)
  | text (s : String)
deriving DecidableEq, Repr

/-- Value of a decimal digit list. -/
def digitsToNat (l : List Char) : Nat :=
  l.foldl (fun a c => a * 10 + (c.toNat - '0'.toNat)) 0

/-- Python's `int(text)`: optional surrounding whitespace, optional sign,
at least one digit; `none` when the text is not an integer literal. -/
def parseInt? (s : String) : Option Int :=
  let t := s.data.dropWhile (·.isWhitespace)
  let t := (t.reverse.dropWhile (·.isWhitespace)).reverse
  let signDigits : Bool × List Char :=
    match t with
    | '-' :: rest => (true, rest)
    | '+' :: rest => (false, rest)
    | l => (false, l)
  if signDigits.2 ≠ [] ∧ signDigits.2.all (·.isDigit) then
    some (if signDigits.1 then -(digitsToNat signDigits.2 : Int) else digitsToNat signDigits.2)
  else none

/-- `int(current)` on the routing layer's value. -/
def coerceCurrent : Current → Option Int
  | .num n => some n
  | .text s => parseInt? s

/-- Exact ceiling division, modelling
`int(math.ceil(float(n) / k))` for `k ≥ 1`. -/
def ceilDiv (n k : Nat) : Nat := (n + k - 1) / k

/-- Python's slice `l[a:b]` for non-negative bounds: indices `a ≤ i < b`,
clamped to the list length. -/
def pySlice {α : Type} (a b : Nat) (l : List α) : List α := (l.take b).drop a

/-- `build_posts_pager`: resolve the source list (a named category's list
or the global published list), validate `perpage`, compute the page total,
validate the coerced `current`, and slice. -/
def build_posts_pager (ctx : ContextSnapshot) (meta : PagerMeta) (current : Current) :
    Except PagerError Pager :=
  let resolved : Except PagerError (List Post) :=
    match meta.category with
    | some c =>
      match alistGet c ctx.categories with
      | none => .error .unknownCategory
      | some l => .ok l
    | none => .ok ctx.posts
  match resolved with
  | .error e => .error e
  | .ok posts =>
    match meta.perpage with
    | none => .error .perpageTypeError
    | some pp =>
      if pp < 1 then .error .invalidPerpage
      else
        let total := ceilDiv posts.length pp.toNat
        match coerceCurrent current with
        | none => .error .invalidPageNumber
        | some cur =>
          if 1 ≤ cur ∧ cur ≤ (total : Int) then
            .ok { page := .num cur, total := total,
                  posts := pySlice ((cur.toNat - 1) * pp.toNat) (cur.toNat * pp.toNat) posts }
          else .error .invalidPageNumber

/-- Ordered insertion of a string (lexicographic). -/
def insertStr (s : String) : List String → List String
  | [] => [s]
  | t :: ts => if s ≤ t then s :: t :: ts else t :: insertStr s ts

/-- Python's `sorted` on strings. -/
def sortStrings (l : List String) : List String := l.foldr insertStr []

/-- `build_categories_pager`: no pager (and no error) when `current` did
not arrive as text; otherwise enumerate the categories in sorted name
order, fail on an unknown name, and return the full post list of the
named category. -/
def build_categories_pager (ctx : ContextSnapshot) (current : Current) :
    Except PagerError (Option Pager) :=
  match current with
  | .num _ => .ok none
  | .text s =>
    let cats := sortStrings (ctx.categories.map (·.1))
    if strMem s cats then
      .ok (some { page := .name s, total := cats.length,
                  posts := (alistGet s ctx.categories).getD [] })
    else .error .unknownCategory

/-- `maybe_build_pager`: dispatch on the `paginate` metadata field.  Any
value other than `'posts'` or `'categories'` (and a missing field) falls
through to `return None`. -/
def maybe_build_pager (ctx : ContextSnapshot) (meta : PagerMeta) (current : Current) :
    Except PagerError (Option Pager) :=
  match meta.paginate with
  | none => .ok none
  | some a =>
    if a = "posts" then
      match build_posts_pager ctx meta current with
      | .error e => .error e
      | .ok pager => .ok (some pager)
    else if a = "categories" then build_categories_pager ctx current
    else .ok none

/-! ## Basic lemmas about the embedded operations -/

theorem splitLines_ne_nil (cs : List Char) : splitLines cs ≠ [] := by
  cases cs with
  | nil => simp [splitLines]
  | cons c cs =>
    unfold splitLines
    cases h : splitLines cs with
    | nil => simp
    | cons l ls => by_cases hc : c = '\n' <;> simp [hc]

theorem joinLines_splitLines : ∀ cs : List Char, joinLines (splitLines cs) = cs
  | [] => rfl
  | c :: cs => by
    have ih := joinLines_splitLines cs
    unfold splitLines
    cases h : splitLines cs with
    | nil => exact absurd h (splitLines_ne_nil cs)
    | cons l ls =>
      rw [h] at ih
      by_cases hc : c = '\n'
      · subst hc
        simp only [if_pos rfl, joinLines]
        exact congrArg ('\n' :: ·) ih
      · show joinLines (if c = '\n' then [] :: l :: ls else (c :: l) :: ls) = c :: cs
        rw [if_neg hc]
        cases ls with
        | nil =>
          simp only [joinLines] at ih ⊢
          exact congrArg (c :: ·) ih
        | cons l2 ls2 =>
          simp only [joinLines, List.cons_append] at ih ⊢
          exact congrArg (c :: ·) ih

theorem takeWhile_middle {α : Type} (p : α → Bool) :
    ∀ (pre : List α) (x : α) (post : List α),
      (∀ l ∈ pre, p l = true) → p x = false →
      (pre ++ x :: post).takeWhile p = pre ∧ (pre ++ x :: post).dropWhile p = x :: post
  | [], x, post, _, hx => by
    simp [List.takeWhile_cons, List.dropWhile_cons, hx]
  | a :: pre, x, post, h, hx => by
    have ha : p a = true := h a (List.mem_cons_self a pre)
    have ih := takeWhile_middle p pre x post (fun l hl => h l (List.mem_cons_of_mem a hl)) hx
    simp [List.takeWhile_cons, List.dropWhile_cons, ha, ih.1, ih.2]

theorem alistGet_alistInsert {α : Type} (k k' : String) (v : α) (l : List (String × α)) :
    alistGet k (alistInsert k' v l) = if k' = k then some v else alistGet k l := by
  induction l with
  | nil => simp [alistInsert, alistGet]
  | cons kv rest ih =>
    obtain ⟨a, b⟩ := kv
    by_cases h1 : a = k'
    · subst h1
      by_cases h2 : a = k <;> simp [alistInsert, alistGet, h2]
    · by_cases h2 : a = k
      · subst h2
        have hk : ¬ (k' = a) := fun h => h1 h.symm
        simp [alistInsert, h1, alistGet, hk]
      · simp [alistInsert, h1, alistGet, h2, ih]

theorem alistGet_mem {α : Type} {k : String} {v : α} :
    ∀ {l : List (String × α)}, alistGet k l = some v → (k, v) ∈ l
  | [], h => by simp [alistGet] at h
  | (a, b) :: rest, h => by
    by_cases h1 : a = k
    · subst h1
      rw [alistGet, if_pos rfl] at h
      injection h with h
      subst h
      exact List.mem_cons_self _ _
    · rw [alistGet, if_neg h1] at h
      exact List.mem_cons_of_mem _ (alistGet_mem h)

theorem mem_alistInsert {α : Type} {kv : String × α} {k : String} {v : α} :
    ∀ {l : List (String × α)}, kv ∈ alistInsert k v l → kv = (k, v) ∨ kv ∈ l
  | [], h => by
    simp [alistInsert] at h
    exact Or.inl h
  | (a, b) :: rest, h => by
    by_cases h1 : a = k
    · subst h1
      rw [alistInsert, if_pos rfl] at h
      rcases List.mem_cons.mp h with h2 | h2
      · exact Or.inl h2
      · exact Or.inr (List.mem_cons_of_mem _ h2)
    · rw [alistInsert, if_neg h1] at h
      rcases List.mem_cons.mp h with h2 | h2
      · exact Or.inr (h2 ▸ List.mem_cons_self _ _)
      · rcases mem_alistInsert h2 with h3 | h3
        · exact Or.inl h3
        · exact Or.inr (List.mem_cons_of_mem _ h3)

theorem alistGet_isSome_alistInsert {α : Type} (r k : String) (v : α)
    (l : List (String × α)) (h : (alistGet r l).isSome = true) :
    (alistGet r (alistInsert k v l)).isSome = true := by
  rw [alistGet_alistInsert]
  by_cases hk : k = r <;> simp [hk, h]

theorem strMem_insertStr (x s : String) (l : List String) :
    strMem x (insertStr s l) = ((s == x) || strMem x l) := by
  induction l with
  | nil => rfl
  | cons t ts ih =>
    by_cases h : s ≤ t
    · simp [insertStr, h, strMem]
    · simp [insertStr, h, strMem, ih]
      cases s == x <;> cases t == x <;> simp

theorem strMem_sortStrings (x : String) (l : List String) :
    strMem x (sortStrings l) = strMem x l := by
  induction l with
  | nil => rfl
  | cons t ts ih =>
    show strMem x (insertStr t (sortStrings ts)) = _
    rw [strMem_insertStr, ih]
    rfl

theorem length_insertStr (s : String) (l : List String) :
    (insertStr s l).length = l.length + 1 := by
  induction l with
  | nil => rfl
  | cons t ts ih => by_cases h : s ≤ t <;> simp [insertStr, h, ih]

theorem length_sortStrings (l : List String) : (sortStrings l).length = l.length := by
  induction l with
  | nil => rfl
  | cons t ts ih =>
    show (insertStr t (sortStrings ts)).length = _
    rw [length_insertStr, ih]
    rfl

theorem alistGet_isSome_strMem {α : Type} (k : String) (l : List (String × α)) :
    (alistGet k l).isSome = strMem k (l.map (·.1)) := by
  induction l with
  | nil => rfl
  | cons kv rest ih =>
    obtain ⟨a, b⟩ := kv
    by_cases h : a = k
    · subst h; simp [alistGet, strMem]
    · simp [alistGet, strMem, h, ih]

/-! ## C8: the Document parser contract -/

/-- C8: for every input text, `parse_page` returns `(header, body)` where
the header is the newline-join of the longest prefix of lines that are
non-blank after trimming, the first blank line is excluded from both
parts, and the body is the newline-join of everything after that boundary
line; with no blank line the header is the entire input and the body is
empty.  `parse_page` is a total function, so it never raises. -/
theorem parse_page_spec (content : String) :
    ((∀ l ∈ splitLines content.data, isBlank l = false) →
      parse_page content = (content, "")) ∧
    (∀ pre x post, splitLines content.data = pre ++ x :: post →
      (∀ l ∈ pre, isBlank l = false) → isBlank x = true →
      parse_page content = (String.mk (joinLines pre), String.mk (joinLines post))) := by
  constructor
  · intro hall
    have htake : (splitLines content.data).takeWhile (fun l => !isBlank l) =
        splitLines content.data := by
      rw [List.takeWhile_eq_self_iff]
      intro l hl
      rw [hall l hl]
      rfl
    have hdrop : (splitLines content.data).dropWhile (fun l => !isBlank l) = [] := by
      rw [List.dropWhile_eq_nil_iff]
      intro l hl
      rw [hall l hl]
      rfl
    simp only [parse_page]
    rw [htake, hdrop, joinLines_splitLines]
    cases content
    rfl
  · intro pre x post hsplit hpre hx
    have hmid := takeWhile_middle (fun l => !isBlank l) pre x post
      (fun l hl => by simp [hpre l hl]) (by simp [hx])
    simp only [parse_page]
    rw [hsplit, hmid.1, hmid.2]
    rfl

/-- Witness for C8 at a concrete file: a two-line header would be split at
the first blank line; here the header is one line and the body contains a
further blank line. -/
theorem parse_page_spec_witness :
    parse_page "t: x\n\nhello\n\nworld" =
      (String.mk (joinLines [['t', ':', ' ', 'x']]),
       String.mk (joinLines [['h', 'e', 'l', 'l', 'o'], [], ['w', 'o', 'r', 'l', 'd']])) :=
  (parse_page_spec "t: x\n\nhello\n\nworld").2
    [['t', ':', ' ', 'x']] [] [['h', 'e', 'l', 'l', 'o'], [], ['w', 'o', 'r', 'l', 'd']]
    (by decide) (by decide) (by decide)

/-! ## C7: Document metadata -/

/-- C7 counterexample: the claim says `metadata()` fails exactly when the
header parses to a non-mapping value (a scalar or a sequence).  But the
source computes `yaml.load(...) or {}`, so a *falsy* scalar (`0`) and the
empty sequence (`[]`) are replaced by the empty dict and succeed. -/
theorem page_meta_falsy_nonmapping_cex :
    page_meta (Yaml.yint 0) = .ok [] ∧ isDict (Yaml.yint 0) = false ∧
    page_meta (Yaml.ylist []) = .ok [] ∧ isDict (Yaml.ylist []) = false :=
  ⟨rfl, rfl, rfl, rfl⟩

/-- C7 (amended): `metadata()` returns a mapping whenever the header
parses to a mapping or to any falsy value (null — in particular an empty
or whitespace-only header — false, 0, the empty string, the empty
sequence), the falsy cases yielding the empty mapping; it fails with
`MalformedMetadataError` exactly when the parsed value is a *truthy*
non-mapping value. -/
theorem page_meta_spec (v : Yaml) :
    (falsy v = true → page_meta v = .ok []) ∧
    (∀ d, v = Yaml.ydict d → falsy v = false → page_meta v = .ok d) ∧
    (page_meta v = .error .malformed ↔ (falsy v = false ∧ isDict v = false)) := by
  refine ⟨?_, ?_, ?_⟩
  · intro h
    unfold page_meta
    rw [h]
    rfl
  · intro d hd hf
    subst hd
    unfold page_meta
    rw [hf]
    rfl
  · cases v with
    | ynull => simp [page_meta, falsy, isDict]
    | ybool b => cases b <;> simp [page_meta, falsy, isDict]
    | yint n => by_cases h : n = 0 <;> simp [page_meta, falsy, isDict, h, beq_iff_eq]
    | ystr s => by_cases h : s = "" <;> simp [page_meta, falsy, isDict, h, beq_iff_eq]
    | ylist l => cases l <;> simp [page_meta, falsy, isDict]
    | ydict d => cases d <;> simp [page_meta, falsy, isDict]

/-- Witness for C7 (amended): a null parse (blank header) yields the empty
mapping and a non-empty mapping parse is returned unchanged. -/
theorem page_meta_spec_witness :
    page_meta Yaml.ynull = .ok [] ∧
    page_meta (Yaml.ydict [("title", Yaml.ystr "x")]) = .ok [("title", Yaml.ystr "x")] :=
  ⟨(page_meta_spec Yaml.ynull).1 rfl,
   (page_meta_spec (Yaml.ydict [("title", Yaml.ystr "x")])).2.1 _ rfl rfl⟩

/-! ## C5: unknown pagination mode -/

/-- C5 counterexample: a page whose `paginate` value is neither `'posts'`
nor `'categories'` does not fail; `maybe_build_pager` falls through to
`return None` and the page is rendered without a pager. -/
theorem maybe_build_pager_unknown_mode_cex :
    maybe_build_pager { posts := [], categories := [] }
      { paginate := some "pages", category := none, perpage := some 5 } (.num 1) =
      .ok none := rfl

/-- C5 (amended): for every `paginate` value other than `'posts'` and
`'categories'`, `maybe_build_pager` silently returns no pager and raises
no error. -/
theorem maybe_build_pager_unknown_mode (ctx : ContextSnapshot) (meta : PagerMeta)
    (current : Current) (a : String) (ha : meta.paginate = some a)
    (hp : a ≠ "posts") (hc : a ≠ "categories") :
    maybe_build_pager ctx meta current = .ok none := by
  simp only [maybe_build_pager, ha]
  rw [if_neg hp, if_neg hc]

/-- Witness for C5 (amended) at a concrete unknown mode. -/
theorem maybe_build_pager_unknown_mode_witness :
    maybe_build_pager { posts := [], categories := [] }
      { paginate := some "single", category := none, perpage := none } (.text "2") =
      .ok none :=
  maybe_build_pager_unknown_mode _ _ _ "single" rfl (by decide) (by decide)

/-! ## C9: category pagination -/

/-- C9: a `current` that did not arrive as text yields no pager and no
error; for text, the total is the number of categories (the length of the
sorted key enumeration equals the number of mapping entries), an unknown
name fails with `UnknownCategoryError`, and a known name returns the name,
the total and that category's full post list unsliced. -/
theorem build_categories_pager_spec (ctx : ContextSnapshot) :
    (∀ n : Int, build_categories_pager ctx (.num n) = .ok none) ∧
    (∀ s l, alistGet s ctx.categories = some l →
      build_categories_pager ctx (.text s) =
        .ok (some { page := .name s, total := ctx.categories.length, posts := l })) ∧
    (∀ s, alistGet s ctx.categories = none →
      build_categories_pager ctx (.text s) = .error .unknownCategory) := by
  refine ⟨fun n => rfl, ?_, ?_⟩
  · intro s l h
    have hm : strMem s (sortStrings (ctx.categories.map (·.1))) = true := by
      rw [strMem_sortStrings, ← alistGet_isSome_strMem, h]
      rfl
    simp only [build_categories_pager, hm, if_true, length_sortStrings, List.length_map, h]
    rfl
  · intro s h
    have hm : strMem s (sortStrings (ctx.categories.map (·.1))) = false := by
      rw [strMem_sortStrings, ← alistGet_isSome_strMem, h]
      rfl
    simp only [build_categories_pager, hm]
    rfl

/-- Witness for C9: two categories, sorted enumeration of size 2; the
integer default gives no pager, a known name gives the full list, an
unknown name fails. -/
theorem build_categories_pager_spec_witness :
    build_categories_pager { posts := [], categories := [("b", []), ("a", [])] } (.num 1) =
      .ok none ∧
    build_categories_pager { posts := [], categories := [("b", []), ("a", [])] } (.text "b") =
      .ok (some { page := .name "b", total := 2, posts := [] }) ∧
    build_categories_pager { posts := [], categories := [("b", []), ("a", [])] } (.text "c") =
      .error .unknownCategory :=
  ⟨(build_categories_pager_spec _).1 1,
   (build_categories_pager_spec _).2.1 "b" [] rfl,
   (build_categories_pager_spec _).2.2 "c" rfl⟩

/-! ## C3: post-count pagination arithmetic -/

/-- C3: post-count pagination over the resolved source list (the named
category's list when `category` is given, else `published`), with a
positive integer `perpage`: the total is the exact ceiling of
`len(src)/perpage`; the request fails with `InvalidPageNumberError` unless
the coerced `current` satisfies `1 ≤ current ≤ total` (for `total = 0`
every `current` fails, and a non-integer `current` fails); otherwise the
result is the slice `src[(current-1)*perpage : current*perpage]`
(clamped), together with `current` and the total. -/
theorem build_posts_pager_spec (ctx : ContextSnapshot) (meta : PagerMeta)
    (current : Current) (pp : Int) (src : List Post)
    (hpp : meta.perpage = some pp) (hpos : 1 ≤ pp)
    (hsrc : (meta.category = none ∧ src = ctx.posts) ∨
            (∃ c, meta.category = some c ∧ alistGet c ctx.categories = some src)) :
    (∀ cur : Int, coerceCurrent current = some cur →
      ((1 ≤ cur ∧ cur ≤ (ceilDiv src.length pp.toNat : Int)) →
        build_posts_pager ctx meta current =
          .ok { page := .num cur, total := ceilDiv src.length pp.toNat,
                posts := pySlice ((cur.toNat - 1) * pp.toNat) (cur.toNat * pp.toNat) src }) ∧
      (¬(1 ≤ cur ∧ cur ≤ (ceilDiv src.length pp.toNat : Int)) →
        build_posts_pager ctx meta current = .error .invalidPageNumber)) ∧
    (coerceCurrent current = none →
      build_posts_pager ctx meta current = .error .invalidPageNumber) := by
  have hlt : ¬ pp < 1 := by omega
  have hres : build_posts_pager ctx meta current =
      (match coerceCurrent current with
        | none => .error .invalidPageNumber
        | some cur =>
          if 1 ≤ cur ∧ cur ≤ ((ceilDiv src.length pp.toNat : Nat) : Int) then
            .ok { page := .num cur, total := ceilDiv src.length pp.toNat,
                  posts := pySlice ((cur.toNat - 1) * pp.toNat) (cur.toNat * pp.toNat) src }
          else .error .invalidPageNumber) := by
    rcases hsrc with ⟨hnone, hsrceq⟩ | ⟨c, hc, hget⟩
    · subst hsrceq
      simp only [build_posts_pager, hnone, hpp, if_neg hlt]
    · simp only [build_posts_pager, hc, hget, hpp, if_neg hlt]
  refine ⟨?_, ?_⟩
  · intro cur hcur
    rw [hres, hcur]
    constructor
    · intro hok
      exact if_pos hok
    · intro hbad
      exact if_neg hbad
  · intro hcur
    rw [hres, hcur]

/-- Witness for C3, the spec's own example: 10 posts, `perpage = 3` gives
`total = 4`; page `"4"` returns exactly the tenth post (`posts[9:12]`
clamped to one element); page `"5"` and page `0` fail. -/
theorem build_posts_pager_spec_witness :
    build_posts_pager
      { posts := (List.range 10).map (fun i => { slug := toString i, date? := some i, cats? := none }),
        categories := [] }
      { paginate := some "posts", category := none, perpage := some 3 } (.text "4") =
      .ok { page := .num 4, total := 4,
            posts := pySlice 9 12
              ((List.range 10).map (fun i => { slug := toString i, date? := some i, cats? := none })) } ∧
    build_posts_pager
      { posts := (List.range 10).map (fun i => { slug := toString i, date? := some i, cats? := none }),
        categories := [] }
      { paginate := some "posts", category := none, perpage := some 3 } (.text "5") =
      .error .invalidPageNumber ∧
    build_posts_pager
      { posts := (List.range 10).map (fun i => { slug := toString i, date? := some i, cats? := none }),
        categories := [] }
      { paginate := some "posts", category := none, perpage := some 3 } (.num 0) =
      .error .invalidPageNumber :=
  ⟨((build_posts_pager_spec _ _ (.text "4") 3 _ rfl (by decide) (Or.inl ⟨rfl, rfl⟩)).1 4
      (by decide)).1 (by decide),
   ((build_posts_pager_spec _ _ (.text "5") 3 _ rfl (by decide) (Or.inl ⟨rfl, rfl⟩)).1 5
      (by decide)).2 (by decide),
   ((build_posts_pager_spec _ _ (.num 0) 3 _ rfl (by decide) (Or.inl ⟨rfl, rfl⟩)).1 0
      rfl).2 (by decide)⟩

/-! ## C4 and C10: cache hits -/

/-- C4: loading the same unchanged file twice is idempotent.  Whatever a
first successful `load_page` did, a second `load_page` of the same path
against an unchanged filesystem returns the state of the first load
untouched — the cache still holds the identical Document — and reports
`false` for the read/parse event: no re-read and no re-parse occur. -/
theorem load_page_idempotent (cfg : Config) (fs : List FsEntry) (route fp : String)
    (s s₁ : PagesState) (b : Bool)
    (h : load_page cfg fs route fp s = .ok (s₁, b)) :
    load_page cfg fs route fp s₁ = .ok (s₁, false) := by
  unfold load_page at h ⊢
  cases hst : statFile fs cfg.root fp with
  | none => rw [hst] at h; cases h
  | some e =>
    simp only [hst] at h ⊢
    have hfresh : alistGet fp (loadFresh route fp e s).file_cache =
        some ({ path := route, meta := (parse_page e.content).1,
                body := (parse_page e.content).2 }, e.mtime) := by
      simp [loadFresh, alistGet_alistInsert]
    cases hc : alistGet fp s.file_cache with
    | some pt =>
      simp only [hc] at h
      by_cases ht : pt.2 = e.mtime
      · rw [if_pos ht] at h
        injection h with h
        injection h with h1 h2
        subst h1
        simp only [hc]
        rw [if_pos ht]
      · rw [if_neg ht] at h
        injection h with h
        injection h with h1 h2
        subst h1
        simp only [hfresh]
        simp
    | none =>
      simp only [hc] at h
      injection h with h
      injection h with h1 h2
      subst h1
      simp only [hfresh]
      simp

/-- Witness for C4: the state after first loading `a.html`; the second
load returns it unchanged with no parse. -/
theorem load_page_idempotent_witness :
    load_page { root := "r", extensions := [".html"], prunning := true, excludes := [] }
      [{ relpath := "a.html", mtime := 3, content := "t: 1\n\nhello" }] "a" "r/a.html"
      { file_cache := [("r/a.html", { path := "a", meta := "t: 1", body := "hello" }, 3)],
        pages := [("a", { path := "a", meta := "t: 1", body := "hello" })],
        first_run := true } =
      .ok ({ file_cache := [("r/a.html", { path := "a", meta := "t: 1", body := "hello" }, 3)],
             pages := [("a", { path := "a", meta := "t: 1", body := "hello" })],
             first_run := true }, false) :=
  load_page_idempotent _ _ "a" "r/a.html" initState _ true rfl

/-- C10: on a pure cache hit — a cache entry for the path whose stored
timestamp equals the file's current modification timestamp — `load_page`
returns with the entire Collection state identical (file cache, routes
mapping and first-run flag), reporting no read/parse; and whenever a
`load_page` call does change the routes mapping, it read and parsed the
file, which only happens for a new or changed file. -/
theorem load_page_frame (cfg : Config) (fs : List FsEntry) (route fp : String)
    (s : PagesState) :
    (∀ pg t, alistGet fp s.file_cache = some (pg, t) →
      getmtime fs cfg.root fp = some t →
      load_page cfg fs route fp s = .ok (s, false)) ∧
    (∀ s' b, load_page cfg fs route fp s = .ok (s', b) → s'.pages ≠ s.pages → b = true) := by
  constructor
  · intro pg t hc hm
    unfold getmtime at hm
    cases hst : statFile fs cfg.root fp with
    | none => rw [hst] at hm; cases hm
    | some e =>
      rw [hst] at hm
      injection hm with hm
      unfold load_page
      simp only [hst, hc]
      have hmt : (pg, t).2 = e.mtime := hm.symm
      rw [if_pos hmt]
  · intro s' b h hne
    unfold load_page at h
    cases hst : statFile fs cfg.root fp with
    | none => rw [hst] at h; cases h
    | some e =>
      simp only [hst] at h
      cases hc : alistGet fp s.file_cache with
      | some pt =>
        simp only [hc] at h
        by_cases ht : pt.2 = e.mtime
        · rw [if_pos ht] at h
          injection h with h
          injection h with h1 h2
          exact absurd (congrArg PagesState.pages h1.symm) hne
        · rw [if_neg ht] at h
          injection h with h
          injection h with h1 h2
          exact h2.symm
      | none =>
        simp only [hc] at h
        injection h with h
        injection h with h1 h2
        exact h2.symm

/-- Witness for C10: a concrete cache hit leaves the state identical. -/
theorem load_page_frame_witness :
    load_page { root := "r", extensions := [".html"], prunning := true, excludes := [] }
      [{ relpath := "a.html", mtime := 3, content := "t: 1\n\nhello" }] "a" "r/a.html"
      { file_cache := [("r/a.html", { path := "a", meta := "t: 1", body := "hello" }, 3)],
        pages := [("a", { path := "a", meta := "t: 1", body := "hello" })],
        first_run := false } =
      .ok ({ file_cache := [("r/a.html", { path := "a", meta := "t: 1", body := "hello" }, 3)],
             pages := [("a", { path := "a", meta := "t: 1", body := "hello" })],
             first_run := false }, false) :=
  (load_page_frame _ _ "a" "r/a.html" _).1
    { path := "a", meta := "t: 1", body := "hello" } 3 rfl rfl

/-! ## C2: the Context Snapshot ordering -/

theorem mem_insertPost {x p : Post} :
    ∀ {l : List Post}, x ∈ insertPost p l ↔ x = p ∨ x ∈ l
  | [] => by simp [insertPost]
  | q :: qs => by
    by_cases h : dateOf p < dateOf q
    · rw [insertPost, if_pos h]
      rw [List.mem_cons, List.mem_cons, mem_insertPost]
      tauto
    · rw [insertPost, if_neg h]
      rw [List.mem_cons, List.mem_cons]

theorem perm_insertPost (p : Post) : ∀ l : List Post, (insertPost p l).Perm (p :: l)
  | [] => List.Perm.refl _
  | q :: qs => by
    by_cases h : dateOf p < dateOf q
    · rw [insertPost, if_pos h]
      exact ((perm_insertPost p qs).cons q).trans (List.Perm.swap p q qs)
    · rw [insertPost, if_neg h]

theorem pairwise_insertPost {p : Post} :
    ∀ {l : List Post}, List.Pairwise (fun a b => dateOf b ≤ dateOf a) l →
      List.Pairwise (fun a b => dateOf b ≤ dateOf a) (insertPost p l)
  | [], _ => by simp [insertPost]
  | q :: qs, h => by
    rw [List.pairwise_cons] at h
    by_cases hlt : dateOf p < dateOf q
    · rw [insertPost, if_pos hlt]
      rw [List.pairwise_cons]
      refine ⟨fun x hx => ?_, pairwise_insertPost h.2⟩
      rcases mem_insertPost.mp hx with hx | hx
      · subst hx
        exact Nat.le_of_lt hlt
      · exact h.1 x hx
    · rw [insertPost, if_neg hlt]
      rw [List.pairwise_cons]
      refine ⟨fun x hx => ?_, List.pairwise_cons.mpr h⟩
      rcases List.mem_cons.mp hx with hx | hx
      · subst hx
        exact Nat.le_of_not_lt hlt
      · exact Nat.le_trans (h.1 x hx) (Nat.le_of_not_lt hlt)

theorem sorted_sortPublished (l : List Post) :
    List.Pairwise (fun a b => dateOf b ≤ dateOf a) (sortPublished l) := by
  induction l with
  | nil => exact List.Pairwise.nil
  | cons p ps ih => exact pairwise_insertPost ih

theorem perm_sortPublished (l : List Post) : (sortPublished l).Perm l := by
  induction l with
  | nil => exact List.Perm.refl _
  | cons p ps ih =>
    exact (perm_insertPost p (sortPublished ps)).trans (ih.cons p)

theorem filter_insertPost (d : Nat) (p : Post) (l : List Post) :
    (insertPost p l).filter (fun q => dateOf q == d) =
      if dateOf p = d then p :: l.filter (fun q => dateOf q == d)
      else l.filter (fun q => dateOf q == d) := by
  induction l with
  | nil => by_cases h : dateOf p = d <;> simp [insertPost, List.filter_cons, h, beq_iff_eq]
  | cons q qs ih =>
    by_cases hlt : dateOf p < dateOf q
    · rw [insertPost, if_pos hlt]
      by_cases hd : dateOf p = d
      · have hq : ¬ (dateOf q = d) := by omega
        rw [if_pos hd] at ih ⊢
        simp only [List.filter_cons, ih]
        simp [hq, hd]
      · rw [if_neg hd] at ih ⊢
        simp only [List.filter_cons, ih]
    · rw [insertPost, if_neg hlt]
      by_cases hd : dateOf p = d
      · rw [if_pos hd]
        simp [List.filter_cons, hd]
      · rw [if_neg hd]
        simp [List.filter_cons, hd]

theorem filter_sortPublished (d : Nat) (l : List Post) :
    (sortPublished l).filter (fun q => dateOf q == d) =
      l.filter (fun q => dateOf q == d) := by
  induction l with
  | nil => rfl
  | cons p ps ih =>
    show (insertPost p (sortPublished ps)).filter _ = _
    rw [filter_insertPost]
    by_cases hd : dateOf p = d
    · rw [if_pos hd, ih]
      simp [List.filter_cons, hd]
    · rw [if_neg hd, ih]
      simp [List.filter_cons, hd]

theorem alistGet_addToCat_same (c : String) (p : Post) :
    ∀ cats : List (String × List Post),
      alistGet c (addToCat c p cats) = some ((alistGet c cats).getD [] ++ [p])
  | [] => by simp [addToCat, alistGet]
  | (k, l) :: rest => by
    by_cases h : k = c
    · subst h
      simp [addToCat, alistGet]
    · simp [addToCat, alistGet, h, alistGet_addToCat_same c p rest]

theorem alistGet_addToCat_other {c c' : String} (h : c' ≠ c) (p : Post) :
    ∀ cats : List (String × List Post),
      alistGet c (addToCat c' p cats) = alistGet c cats
  | [] => by simp [addToCat, alistGet, h]
  | (k, l) :: rest => by
    by_cases hk : k = c'
    · subst hk
      simp [addToCat, alistGet, h]
    · simp [addToCat, alistGet, hk, alistGet_addToCat_other h p rest]

theorem strMem_iff_mem (s : String) : ∀ l : List String, strMem s l = true ↔ s ∈ l
  | [] => by simp [strMem]
  | t :: ts => by
    simp [strMem, strMem_iff_mem s ts, beq_iff_eq, List.mem_cons]
    tauto

theorem alistGet_foldl_addToCat (p : Post) (c : String) :
    ∀ (cs : List String) (cats : List (String × List Post)), cs.Nodup →
      alistGet c (cs.foldl (fun acc c' => addToCat c' p acc) cats) =
        if strMem c cs then some ((alistGet c cats).getD [] ++ [p])
        else alistGet c cats
  | [], cats, _ => by simp [strMem]
  | c' :: cs, cats, hnd => by
    have hnotin : c' ∉ cs := (List.nodup_cons.mp hnd).1
    have ih := alistGet_foldl_addToCat p c cs (addToCat c' p cats) (List.nodup_cons.mp hnd).2
    show alistGet c (cs.foldl (fun acc c'' => addToCat c'' p acc) (addToCat c' p cats)) = _
    rw [ih]
    by_cases hc : c = c'
    · subst hc
      have hmem : strMem c cs = false := by
        cases h2 : strMem c cs
        · rfl
        · exact absurd ((strMem_iff_mem c cs).mp h2) hnotin
      rw [hmem]
      simp only [Bool.false_eq_true, if_false]
      rw [alistGet_addToCat_same]
      simp [strMem]
    · have hne : c' ≠ c := fun hh => hc hh.symm
      rw [alistGet_addToCat_other hne]
      have hhead : strMem c (c' :: cs) = strMem c cs := by
        simp [strMem, beq_iff_eq, hne]
      rw [hhead]

theorem alistGet_buildCats (c : String) :
    ∀ (ps : List Post) (cats : List (String × List Post)),
      (∀ p ∈ ps, (effCategories p).Nodup) →
      alistGet c (ps.foldl processPost cats) =
        match alistGet c cats with
        | some prev => some (prev ++ ps.filter (fun p => strMem c (effCategories p)))
        | none =>
          if ps.any (fun p => strMem c (effCategories p))
          then some (ps.filter (fun p => strMem c (effCategories p)))
          else none
  | [], cats, _ => by
    cases hg : alistGet c cats <;> simp [hg]
  | p :: ps, cats, hnd => by
    have ih := alistGet_buildCats c ps (processPost cats p)
      (fun q hq => hnd q (List.mem_cons_of_mem _ hq))
    show alistGet c (ps.foldl processPost (processPost cats p)) = _
    rw [ih]
    have hpp : alistGet c (processPost cats p) =
        if strMem c (effCategories p) then some ((alistGet c cats).getD [] ++ [p])
        else alistGet c cats :=
      alistGet_foldl_addToCat p c (effCategories p) cats (hnd p (List.mem_cons_self _ _))
    by_cases hc : strMem c (effCategories p) = true
    · rw [hpp, if_pos hc]
      cases hg : alistGet c cats with
      | some prev => simp [hg, List.filter_cons, List.any_cons, hc]
      | none => simp [hg, List.filter_cons, List.any_cons, hc]
    · have hc' : strMem c (effCategories p) = false := by
        cases h2 : strMem c (effCategories p)
        · rfl
        · exact absurd h2 hc
      rw [hpp, if_neg hc]
      cases hg : alistGet c cats with
      | some prev => simp [hg, List.filter_cons, List.any_cons, hc']
      | none => simp [hg, List.filter_cons, List.any_cons, hc']

/-- The earlier-discovered post of the C2 scenario (older date). -/
def postEarly : Post := { slug := "p1", date? := some 1, cats? := some ["x"] }

/-- The later-discovered post of the C2 scenario (newer date). -/
def postLate : Post := { slug := "p2", date? := some 2, cats? := some ["x"] }

/-- C2 counterexample: two posts sharing category `"x"`, discovered in
ascending date order.  `published` lists them newest-first while the
category's list keeps discovery order, so the category's sequence is *not*
in the same relative order as `published` (it is not a subsequence of
`published`). -/
theorem build_base_context_category_order_cex :
    (build_base_context [postEarly, postLate]).posts = [postLate, postEarly] ∧
    alistGet "x" (build_base_context [postEarly, postLate]).categories =
      some [postEarly, postLate] ∧
    ¬ List.Sublist [postEarly, postLate] [postLate, postEarly] :=
  ⟨rfl, rfl, by decide⟩

/-- C2 (amended): in every Context Snapshot built by `build_base_context`,
`published` is the dated posts sorted by date descending, stably — for
every date value the posts carrying it appear in exactly their discovery
order — and is a permutation of the dated posts; each category's post
sequence is the dated posts declaring that category *in discovery order*
(a suborder of the pre-sort published list, not of the sorted `published`).
Stated for posts whose category lists are duplicate-free, as a duplicated
category entry appends the post twice in the source. -/
theorem build_base_context_spec (ps : List Post)
    (hnd : ∀ p ∈ ps, (effCategories p).Nodup) :
    List.Pairwise (fun a b => dateOf b ≤ dateOf a) (build_base_context ps).posts ∧
    (build_base_context ps).posts.Perm (ps.filter hasDate) ∧
    (∀ d, (build_base_context ps).posts.filter (fun q => dateOf q == d) =
      (ps.filter hasDate).filter (fun q => dateOf q == d)) ∧
    (∀ c l, alistGet c (build_base_context ps).categories = some l →
      l = (ps.filter hasDate).filter (fun p => strMem c (effCategories p))) := by
  refine ⟨sorted_sortPublished _, perm_sortPublished _,
    fun d => filter_sortPublished d _, ?_⟩
  intro c l h
  have hnd' : ∀ p ∈ ps.filter hasDate, (effCategories p).Nodup :=
    fun p hp => hnd p (List.mem_of_mem_filter hp)
  have hchar : alistGet c ((ps.filter hasDate).foldl processPost []) =
      if (ps.filter hasDate).any (fun p => strMem c (effCategories p))
      then some ((ps.filter hasDate).filter (fun p => strMem c (effCategories p)))
      else none :=
    alistGet_buildCats c (ps.filter hasDate) [] hnd'
  have hcats : (build_base_context ps).categories =
      (ps.filter hasDate).foldl processPost [] := rfl
  rw [hcats, hchar] at h
  by_cases hany : (ps.filter hasDate).any (fun p => strMem c (effCategories p)) = true
  · rw [if_pos hany] at h
    injection h with h
    exact h.symm
  · rw [if_neg hany] at h
    cases h

/-- Witness for C2 (amended): the concrete two-post scenario; the date-2
posts of `published` are in discovery order and category `"x"` is exactly
the dated discovery-ordered filter. -/
theorem build_base_context_spec_witness :
    (build_base_context [postEarly, postLate]).posts.filter (fun q => dateOf q == 2) =
      (([postEarly, postLate].filter hasDate).filter (fun q => dateOf q == 2)) ∧
    [postEarly, postLate] =
      ([postEarly, postLate].filter hasDate).filter
        (fun p => strMem "x" (effCategories p)) :=
  ⟨(build_base_context_spec [postEarly, postLate] (by decide)).2.2.1 2,
   (build_base_context_spec [postEarly, postLate] (by decide)).2.2.2 "x"
     [postEarly, postLate] rfl⟩

/-! ## C1 and C6: the Collection reload -/

theorem strData_append (a b : String) : (a ++ b).data = a.data ++ b.data := rfl

theorem relOf_joinPath (root rel : String) :
    String.mk ((joinPath root rel).data.drop (root.data.length + 1)) = rel := by
  have h1 : (joinPath root rel).data = (root.data ++ ['/']) ++ rel.data := by
    show ((root ++ "/") ++ rel).data = _
    rw [strData_append, strData_append]
  have h2 : root.data.length + 1 = (root.data ++ ['/']).length := by simp
  rw [h1, h2, List.drop_left]

theorem wfEntry_mono (cfg : Config) {pages : List (String × YamlPage)} (k : String)
    (pg : YamlPage) {kv : String × YamlPage × Nat}
    (h : wfEntry cfg pages kv = true) :
    wfEntry cfg (alistInsert k pg pages) kv = true := by
  unfold wfEntry at h ⊢
  rw [Bool.and_eq_true] at h ⊢
  exact ⟨h.1, alistGet_isSome_alistInsert _ _ _ _ h.2⟩

theorem stateWF_mem {cfg : Config} {s : PagesState} (h : StateWF cfg s = true)
    {kv : String × YamlPage × Nat} (hm : kv ∈ s.file_cache) :
    wfEntry cfg s.pages kv = true := by
  unfold StateWF at h
  rw [List.all_eq_true] at h
  exact h kv hm

/-- The effect of the miss/stale branch taken by the reload loop for a
discovered entry `e`: well-formedness is preserved, the entry's route is
present afterwards, and the routes mapping gains exactly that route. -/
theorem load_page_fresh_spec (cfg : Config) (e e' : FsEntry) (s : PagesState)
    (hwf : StateWF cfg s = true) :
    StateWF cfg (loadFresh (routeOf e) (joinPath cfg.root e.relpath) e' s) = true ∧
    (alistGet (routeOf e)
      (loadFresh (routeOf e) (joinPath cfg.root e.relpath) e' s).pages).isSome = true ∧
    (∀ r, (alistGet r
        (loadFresh (routeOf e) (joinPath cfg.root e.relpath) e' s).pages).isSome = true ↔
      ((alistGet r s.pages).isSome = true ∨ r = routeOf e)) := by
  have hpages : (loadFresh (routeOf e) (joinPath cfg.root e.relpath) e' s).pages =
      alistInsert (routeOf e)
        { path := routeOf e, meta := (parse_page e'.content).1,
          body := (parse_page e'.content).2 } s.pages := rfl
  have hcache : (loadFresh (routeOf e) (joinPath cfg.root e.relpath) e' s).file_cache =
      alistInsert (joinPath cfg.root e.relpath)
        ({ path := routeOf e, meta := (parse_page e'.content).1,
           body := (parse_page e'.content).2 }, e'.mtime) s.file_cache := rfl
  have hroute : (alistGet (routeOf e)
      (loadFresh (routeOf e) (joinPath cfg.root e.relpath) e' s).pages).isSome = true := by
    rw [hpages, alistGet_alistInsert, if_pos rfl]
    rfl
  refine ⟨?_, hroute, fun r => ?_⟩
  · unfold StateWF
    rw [List.all_eq_true]
    intro kv hkv
    rw [hcache] at hkv
    rcases mem_alistInsert hkv with hkv | hkv
    · subst hkv
      unfold wfEntry
      rw [Bool.and_eq_true]
      constructor
      · show ((
          { path := routeOf e, meta := (parse_page e'.content).1,
            body := (parse_page e'.content).2 } : YamlPage).path ==
          (splitext (String.mk ((joinPath cfg.root e.relpath).data.drop
            (cfg.root.data.length + 1)))).1) = true
        rw [relOf_joinPath]
        exact beq_self_eq_true _
      · exact hroute
    · exact wfEntry_mono cfg _ _ (stateWF_mem hwf hkv)
  · rw [hpages, alistGet_alistInsert]
    by_cases hr : routeOf e = r
    · rw [if_pos hr]
      simp [hr]
    · rw [if_neg hr]
      constructor
      · exact Or.inl
      · rintro (hp | hp)
        · exact hp
        · exact absurd hp.symm hr

/-- The effect of one `load_page` call as issued by the reload loop for a
discovered entry `e`: well-formedness is preserved, the entry's route is
present afterwards, and the routes mapping gains exactly that route. -/
theorem load_page_reload_spec (cfg : Config) (fs : List FsEntry) (e : FsEntry)
    (s s' : PagesState) (b : Bool)
    (hwf : StateWF cfg s = true)
    (h : load_page cfg fs (routeOf e) (joinPath cfg.root e.relpath) s = .ok (s', b)) :
    StateWF cfg s' = true ∧
    (alistGet (routeOf e) s'.pages).isSome = true ∧
    (∀ r, (alistGet r s'.pages).isSome = true ↔
      ((alistGet r s.pages).isSome = true ∨ r = routeOf e)) := by
  unfold load_page at h
  cases hst : statFile fs cfg.root (joinPath cfg.root e.relpath) with
  | none => rw [hst] at h; cases h
  | some e' =>
    simp only [hst] at h
    cases hc : alistGet (joinPath cfg.root e.relpath) s.file_cache with
    | some pt =>
      simp only [hc] at h
      by_cases ht : pt.2 = e'.mtime
      · rw [if_pos ht] at h
        injection h with h
        injection h with h1 h2
        subst h1
        have hwfe := stateWF_mem hwf (alistGet_mem hc)
        unfold wfEntry at hwfe
        rw [Bool.and_eq_true] at hwfe
        have hpath : pt.1.path = routeOf e := by
          have := beq_iff_eq.mp hwfe.1
          rw [relOf_joinPath] at this
          exact this
        have hroute : (alistGet (routeOf e) s.pages).isSome = true := by
          rw [← hpath]
          exact hwfe.2
        exact ⟨hwf, hroute, fun r => by
          constructor
          · exact Or.inl
          · rintro (hp | hp)
            · exact hp
            · rw [hp]; exact hroute⟩
      · rw [if_neg ht] at h
        injection h with h
        injection h with h1 h2
        subst h1
        exact load_page_fresh_spec cfg e e' s hwf
    | none =>
      simp only [hc] at h
      injection h with h
      injection h with h1 h2
      subst h1
      exact load_page_fresh_spec cfg e e' s hwf

/-- The reload loop: starting from a well-formed state, a successful pass
over the discovered entries preserves well-formedness and the routes
mapping afterwards holds exactly the previous routes plus the routes of
the discovered entries that pass the extension and exclusion filters. -/
theorem load_pages_go_spec (cfg : Config) (fs : List FsEntry) :
    ∀ (walked : List FsEntry) (s s' : PagesState),
      StateWF cfg s = true →
      load_pages_go cfg fs walked s = .ok s' →
      StateWF cfg s' = true ∧
      (∀ r, (alistGet r s'.pages).isSome = true ↔
        ((alistGet r s.pages).isSome = true ∨
          ∃ e, e ∈ walked ∧ matchesFilters cfg e = true ∧ routeOf e = r))
  | [], s, s', hwf, h => by
    unfold load_pages_go at h
    injection h with h
    subst h
    exact ⟨hwf, fun r => by simp⟩
  | e :: rest, s, s', hwf, h => by
    unfold load_pages_go at h
    cases hm : matchesFilters cfg e with
    | false =>
      rw [if_neg (by rw [hm]; simp)] at h
      have ih := load_pages_go_spec cfg fs rest s s' hwf h
      refine ⟨ih.1, fun r => ?_⟩
      rw [ih.2 r]
      constructor
      · rintro (hp | ⟨e', he', hme', hre'⟩)
        · exact Or.inl hp
        · exact Or.inr ⟨e', List.mem_cons_of_mem _ he', hme', hre'⟩
      · rintro (hp | ⟨e', he', hme', hre'⟩)
        · exact Or.inl hp
        · rcases List.mem_cons.mp he' with he'' | he''
          · subst he''
            rw [hm] at hme'
            cases hme'
          · exact Or.inr ⟨e', he'', hme', hre'⟩
    | true =>
      rw [if_pos hm] at h
      cases hp : load_page cfg fs (routeOf e) (joinPath cfg.root e.relpath) s with
      | error err => rw [hp] at h; cases h
      | ok sb =>
        obtain ⟨s₁, b⟩ := sb
        simp only [hp] at h
        have hl := load_page_reload_spec cfg fs e s s₁ b hwf hp
        have ih := load_pages_go_spec cfg fs rest s₁ s' hl.1 h
        refine ⟨ih.1, fun r => ?_⟩
        rw [ih.2 r, hl.2.2 r]
        constructor
        · rintro ((hp1 | hp2) | ⟨e', he', hme', hre'⟩)
          · exact Or.inl hp1
          · exact Or.inr ⟨e, List.mem_cons_self _ _, hm, hp2.symm⟩
          · exact Or.inr ⟨e', List.mem_cons_of_mem _ he', hme', hre'⟩
        · rintro (hp1 | ⟨e', he', hme', hre'⟩)
          · exact Or.inl (Or.inl hp1)
          · rcases List.mem_cons.mp he' with he'' | he''
            · subst he''
              exact Or.inl (Or.inr hre'.symm)
            · exact Or.inr ⟨e', he'', hme', hre'⟩

theorem prune_cache_wf (cfg : Config) (fs : List FsEntry) (s : PagesState)
    (h : StateWF cfg s = true) : StateWF cfg (prune_cache fs cfg.root s) = true := by
  unfold StateWF at h ⊢
  rw [List.all_eq_true] at h ⊢
  intro kv hkv
  exact h kv (List.mem_of_mem_filter hkv)

/-- Configuration of the concrete reload scenarios: root `r`, extension
set `{.html}`, pruning enabled, no excludes. -/
def cfgA : Config := { root := "r", extensions := [".html"], prunning := true, excludes := [] }

/-- The single source file of the C1 scenario. -/
def fileA : FsEntry := { relpath := "a.html", mtime := 3, content := "t: 1\n\nhello" }

/-- The Document parsed from `fileA`. -/
def pageA : YamlPage := { path := "a", meta := "t: 1", body := "hello" }

/-- Collection state after the first reload of the C1 scenario. -/
def stateA : PagesState :=
  { file_cache := [("r/a.html", pageA, 3)], pages := [("a", pageA)], first_run := false }

/-- Collection state after deleting `a.html` and reloading: the file cache
is pruned but the routes mapping still holds the stale route. -/
def stateA2 : PagesState :=
  { file_cache := [], pages := [("a", pageA)], first_run := false }

/-- C1 counterexample: load one file, delete it, reload with pruning
enabled.  The pruning pass empties the file cache, but `load_pages` never
clears `_pages`, so the deleted file's route is still present in the
snapshot — the claim's "previous snapshot is discarded / its route is
absent" is false on the code. -/
theorem load_pages_stale_route_cex :
    load_pages cfgA [fileA] [fileA] initState = .ok stateA ∧
    load_pages cfgA [] [] stateA = .ok stateA2 ∧
    alistGet "a" stateA2.pages = some pageA :=
  ⟨rfl, rfl, rfl⟩

/-- C1 (amended): after a successful `reload()` from a well-formed state,
the routes-to-Document mapping contains exactly the union of the routes it
already contained before the reload and the routes of the files that
currently exist under root, have a configured extension and are not
excluded.  The previous snapshot is *not* discarded: pruning (when
enabled) only shrinks the file cache, so the route of a deleted file
remains in the snapshot. -/
theorem load_pages_routes_spec (cfg : Config) (fs : List FsEntry) (s s' : PagesState)
    (hwf : StateWF cfg s = true) (h : load_pages cfg fs fs s = .ok s') (r : String) :
    (alistGet r s'.pages).isSome = true ↔
      ((alistGet r s.pages).isSome = true ∨
        ∃ e, e ∈ fs ∧ matchesFilters cfg e = true ∧ routeOf e = r) := by
  simp only [load_pages] at h
  have hwf0 : StateWF cfg (if cfg.prunning then prune_cache fs cfg.root s else s) = true := by
    by_cases hp : cfg.prunning
    · rw [if_pos hp]
      exact prune_cache_wf cfg fs s hwf
    · rw [if_neg hp]
      exact hwf
  have hpg0 : (if cfg.prunning then prune_cache fs cfg.root s else s).pages = s.pages := by
    by_cases hp : cfg.prunning
    · rw [if_pos hp]
      rfl
    · rw [if_neg hp]
  cases hg : load_pages_go cfg fs fs (if cfg.prunning then prune_cache fs cfg.root s else s) with
  | error err => rw [hg] at h; cases h
  | ok s1 =>
    rw [hg] at h
    injection h with h
    have hpg1 : s'.pages = s1.pages := by rw [← h]
    have hgo := load_pages_go_spec cfg fs fs _ s1 hwf0 hg
    rw [hpg1, hgo.2 r, hpg0]

/-- Witness for C1 (amended) on the concrete one-file scenario. -/
theorem load_pages_routes_spec_witness :
    (alistGet "a" stateA.pages).isSome = true ↔
      ((alistGet "a" initState.pages).isSome = true ∨
        ∃ e, e ∈ [fileA] ∧ matchesFilters cfgA e = true ∧ routeOf e = "a") :=
  load_pages_routes_spec cfgA [fileA] initState stateA rfl rfl "a"

/-- A file discovered by the walk that has vanished before being stat'd. -/
def fileGone : FsEntry := { relpath := "gone.html", mtime := 1, content := "x" }

/-- A second discovered file that still exists. -/
def fileKeep : FsEntry := { relpath := "keep.html", mtime := 1, content := "y" }

/-- C6 counterexample: `gone.html` vanishes between discovery and load.
`load_pages` does not skip it — the stat failure propagates and the whole
reload fails, and the remaining file `keep.html` is never loaded (no state
results at all), contradicting the claim's "non-fatal, reload of the
remaining files completes". -/
theorem load_pages_vanished_cex :
    load_pages cfgA [fileGone, fileKeep] [fileKeep] initState =
      .error .fileUnavailable :=
  rfl

/-- C6 (amended): when a file cannot be stat'd, `load_page` fails with
`FileUnavailableError`, and this is *fatal* to the reload: if any
discovered file passing the filters has vanished from the live
filesystem, the whole `load_pages` returns that error (files after the
vanished one are not loaded and no new snapshot is produced). -/
theorem load_pages_vanished_fatal (cfg : Config) (fs : List FsEntry) (s : PagesState) :
    (∀ route fp, getmtime fs cfg.root fp = none →
      load_page cfg fs route fp s = .error .fileUnavailable) ∧
    (∀ walked, (∃ e, e ∈ walked ∧ matchesFilters cfg e = true ∧
        getmtime fs cfg.root (joinPath cfg.root e.relpath) = none) →
      load_pages cfg walked fs s = .error .fileUnavailable) := by
  have hlp : ∀ route fp (s₀ : PagesState), getmtime fs cfg.root fp = none →
      load_page cfg fs route fp s₀ = .error .fileUnavailable := by
    intro route fp s₀ hm
    unfold getmtime at hm
    cases hst : statFile fs cfg.root fp with
    | none =>
      unfold load_page
      rw [hst]
    | some e =>
      rw [hst] at hm
      cases hm
  have hgo : ∀ (w : List FsEntry) (s₀ : PagesState),
      (∃ e, e ∈ w ∧ matchesFilters cfg e = true ∧
        getmtime fs cfg.root (joinPath cfg.root e.relpath) = none) →
      load_pages_go cfg fs w s₀ = .error .fileUnavailable := by
    intro w
    induction w with
    | nil =>
      rintro s₀ ⟨e, he, -, -⟩
      exact absurd he (List.not_mem_nil e)
    | cons e rest ih =>
      rintro s₀ ⟨e', he', hme', hst'⟩
      unfold load_pages_go
      cases hm : matchesFilters cfg e with
      | true =>
        rw [if_pos rfl]
        cases hp : load_page cfg fs (routeOf e) (joinPath cfg.root e.relpath) s₀ with
        | error err =>
          cases err
          rfl
        | ok sb =>
          obtain ⟨s₁, b⟩ := sb
          simp only [hp]
          rcases List.mem_cons.mp he' with he'' | he''
          · subst he''
            rw [hlp _ _ s₀ hst'] at hp
            cases hp
          · exact ih s₁ ⟨e', he'', hme', hst'⟩
      | false =>
        rw [if_neg (by simp : ¬ false = true)]
        rcases List.mem_cons.mp he' with he'' | he''
        · subst he''
          rw [hm] at hme'
          cases hme'
        · exact ih s₀ ⟨e', he'', hme', hst'⟩
  refine ⟨fun route fp hm => hlp route fp s hm, fun walked hex => ?_⟩
  simp only [load_pages]
  rw [hgo walked _ hex]

/-- Witness for C6 (amended): the vanished file aborts a concrete reload. -/
theorem load_pages_vanished_fatal_witness :
    load_page cfgA [] "gone" "r/gone.html" initState = .error .fileUnavailable ∧
    load_pages cfgA [fileGone] [] initState = .error .fileUnavailable :=
  ⟨(load_pages_vanished_fatal cfgA [] initState).1 "gone" "r/gone.html" rfl,
   (load_pages_vanished_fatal cfgA [] initState).2 [fileGone]
     ⟨fileGone, List.mem_cons_self _ _, rfl, rfl⟩⟩

end Flaskyll
